import Mathlib

/-!
Verification of the BucketSearch core (`bucket_search_u64.c`).

The sorted sequence of `uint64_t` keys is modelled as a `List Nat`; machine
arithmetic is made explicit where it matters: the `uint32_t` cast in
`prefix_u64` is a `% 2 ^ 32`, and the `uint64_t` left-shift wrap is a
`% 2 ^ 64`.  The caller-provided `start` buffer of `build` is modelled as an
`Option (List Nat)` (`none` is the NULL pointer); `build` returns the C status
code together with the (possibly updated) buffer.  `find` returns the C
`ptrdiff_t` result as an `Int` (`-1` is the not-found sentinel).
-/

namespace BucketSearch

/-- Floor of the base-2 logarithm, computed by halving with an explicit
iteration bound (the C routine works on a 64-bit value, so 64 halvings always
suffice). -/
def log2_u64 : Nat → Nat → Nat
  | 0, _ => 0
  | fuel + 1, n => if 2 ≤ n then log2_u64 fuel (n / 2) + 1 else 0

/-- C `bit_width_u64`: `64 - clz(x)` for `x ≠ 0`, and `1` for `x = 0`;
for a 64-bit `x > 0` this is `floor(log2 x) + 1`. -/
def bit_width_u64 (x : Nat) : Nat :=
  if x = 0 then 1 else log2_u64 64 x + 1

/-- C `prefix_u64`: `(uint32_t)(x >> (W - K))` when `W >= K`, otherwise
`(uint32_t)(x << (K - W))`.  The `uint64_t` shift wraps modulo `2 ^ 64` and the
`uint32_t` cast truncates modulo `2 ^ 32`. -/
def prefix_u64 (x W K : Nat) : Nat :=
  if K ≤ W then (x >>> (W - K)) % 2 ^ 32
  else (x <<< (K - W)) % 2 ^ 64 % 2 ^ 32

/-- Body of the C `lower_bound_u64` loop, with an explicit iteration bound:
each iteration shrinks `hi - lo` by at least one, so running the loop `hi - lo`
times is exhaustive (the bound is the loop's termination measure). -/
def lower_bound_go (a : List Nat) (x : Nat) : Nat → Nat → Nat → Nat
  | 0, lo, _ => lo
  | fuel + 1, lo, hi =>
      if lo < hi then
        if a.getD (lo + (hi - lo) / 2) 0 < x then
          lower_bound_go a x fuel (lo + (hi - lo) / 2 + 1) hi
        else
          lower_bound_go a x fuel lo (lo + (hi - lo) / 2)
      else lo

/-- C `lower_bound_u64`: binary search for the first index in `[lo, hi)` whose
element is not less than `x` (returns `hi` when there is none). -/
def lower_bound_u64 (a : List Nat) (lo hi x : Nat) : Nat :=
  lower_bound_go a x (hi - lo) lo hi

/-- Body of the first (forward) pass of `build`: record the first occurrence of
each prefix. -/
def buildStep (a : List Nat) (W K n : Nat) (t : List Nat) (i : Nat) : List Nat :=
  if t.getD (prefix_u64 (a.getD i 0) W K) 0 = n then
    t.set (prefix_u64 (a.getD i 0) W K) i
  else t

/-- Backward pass of `build` (`for p = B-1 downto 0`): a bucket still holding
the sentinel `n` inherits `last`, the start of the nearest following non-empty
bucket; otherwise `last` becomes this bucket's start. -/
def fillBack (n : Nat) : List Nat → Nat → Nat → List Nat
  | t, _, 0 => t
  | t, last, p + 1 =>
      if t.getD p 0 = n then fillBack n (t.set p last) last p
      else fillBack n t (t.getD p 0) p

/-- C `bucketsearch_u64_build`.  `start = none` models a NULL table pointer
(status `-1`); `K` outside `[1, 24]` is status `-2`; on success the table
buffer is rewritten in place (init to `n`, forward first-occurrence pass, end
sentinel, backward hole-filling pass) and status is `0`. -/
def bucketsearch_u64_build (a : List Nat) (K : Nat) (start : Option (List Nat)) :
    Int × Option (List Nat) :=
  match start with
  | none => (-1, none)
  | some s =>
    if K = 0 ∨ 24 < K then (-2, some s)
    else
      let n := a.length
      let B := 2 ^ K
      let W := bit_width_u64 (if n ≠ 0 then a.getD (n - 1) 0 else 0)
      let t1 := (List.range (B + 1)).foldl (fun t p => t.set p n) s
      let t2 := (List.range n).foldl (buildStep a W K n) t1
      (0, some (fillBack n (t2.set B n) n B))

/-- C `bucketsearch_u64_find`.  Validates `n ≠ 0` and `K ∈ [1, 24]`, recomputes
`W` from the last element, routes `x` to bucket `p`, and binary-searches the
range `[start[p], start[p+1])` after a quick range reject.  (The C NULL-pointer
checks on `a` and `start` have no counterpart here: lists are values.) -/
def bucketsearch_u64_find (a : List Nat) (K : Nat) (start : List Nat) (x : Nat) :
    Int :=
  if a.length = 0 then -1
  else if K = 0 ∨ 24 < K then -1
  else
    let n := a.length
    let B := 2 ^ K
    let W := bit_width_u64 (a.getD (n - 1) 0)
    let p := prefix_u64 x W K
    if B ≤ p then -1
    else
      let lo := start.getD p 0
      let hi := start.getD (p + 1) 0
      if lo = hi then -1
      else if x < a.getD lo 0 ∨ a.getD (hi - 1) 0 < x then -1
      else
        let i := lower_bound_u64 a lo hi x
        if i ≠ hi ∧ a.getD i 0 = x then (i : Int) else -1

/-- Reference exact-match binary search over the whole sequence
(`binary_find_u64` in the benchmark file): global lower bound, then an
equality check. -/
def binary_find_u64 (a : List Nat) (x : Nat) : Int :=
  if lower_bound_u64 a 0 a.length x < a.length ∧
      a.getD (lower_bound_u64 a 0 a.length x) 0 = x then
    (lower_bound_u64 a 0 a.length x : Int)
  else -1

/-- Number of elements of `a` whose routing prefix is below `q`; the built
table's entry at `p` turns out to be `bcnt a W K p`. -/
def bcnt (a : List Nat) (W K q : Nat) : Nat :=
  a.countP (fun v => decide (prefix_u64 v W K < q))

/-! ### Basic list access helpers -/

theorem getD_eq_get (a : List Nat) (i : Nat) (hi : i < a.length) :
    a.getD i 0 = a[i] := by
  rw [List.getD_eq_getElem?_getD, List.getElem?_eq_getElem hi, Option.getD_some]

theorem getD_mem_of_lt (a : List Nat) (i : Nat) (hi : i < a.length) :
    a.getD i 0 ∈ a := by
  rw [getD_eq_get a i hi]
  exact List.getElem_mem hi

theorem getD_set_self (l : List Nat) (i v : Nat) (h : i < l.length) :
    (l.set i v).getD i 0 = v := by
  rw [getD_eq_get _ i (by simpa using h)]
  exact List.getElem_set_self (by simpa using h)

theorem getD_set_ne (l : List Nat) (i j v : Nat) (h : i ≠ j) :
    (l.set i v).getD j 0 = l.getD j 0 := by
  rw [List.getD_eq_getElem?_getD, List.getD_eq_getElem?_getD,
    List.getElem?_set_ne h]

theorem sorted_getD_le (a : List Nat) (hs : a.Sorted (· ≤ ·)) (i j : Nat)
    (hij : i ≤ j) (hj : j < a.length) : a.getD i 0 ≤ a.getD j 0 := by
  have hi : i < a.length := by omega
  rw [getD_eq_get a i hi, getD_eq_get a j hj]
  rcases Nat.eq_or_lt_of_le hij with h | h
  · subst h; exact Nat.le_refl _
  · exact List.pairwise_iff_getElem.mp hs i j hi hj h

theorem mem_le_last (a : List Nat) (hs : a.Sorted (· ≤ ·)) (v : Nat) (hv : v ∈ a) :
    v ≤ a.getD (a.length - 1) 0 := by
  obtain ⟨i, hi, hv2⟩ := List.getElem_of_mem hv
  subst hv2
  rw [← getD_eq_get a i hi]
  exact sorted_getD_le a hs i (a.length - 1) (by omega) (by omega)

/-! ### Bit width and prefix extraction -/

theorem lt_two_pow_log2_u64 :
    ∀ (fuel n : Nat), n < 2 ^ fuel → n < 2 ^ (log2_u64 fuel n + 1) := by
  intro fuel
  induction fuel with
  | zero =>
    intro n hn
    simp only [pow_zero, Nat.lt_one_iff] at hn
    subst hn
    simp [log2_u64]
  | succ fuel ih =>
    intro n hn
    rw [log2_u64]
    by_cases h2 : 2 ≤ n
    · rw [if_pos h2]
      have hhalf : n / 2 < 2 ^ fuel := by
        rw [pow_succ] at hn
        omega
      have := ih (n / 2) hhalf
      rw [pow_succ]
      omega
    · rw [if_neg h2]
      calc n < 2 := by omega
        _ ≤ 2 ^ (0 + 1) := by norm_num

theorem lt_two_pow_bit_width (x : Nat) (hx : x < 2 ^ 64) :
    x < 2 ^ bit_width_u64 x := by
  unfold bit_width_u64
  split
  · next h => subst h; norm_num
  · exact lt_two_pow_log2_u64 64 x hx

theorem prefix_u64_eq (x W K : Nat) (hx : x < 2 ^ W) (hK : K ≤ 32) :
    prefix_u64 x W K = if K ≤ W then x / 2 ^ (W - K) else x * 2 ^ (K - W) := by
  unfold prefix_u64
  by_cases h : K ≤ W
  · rw [if_pos h, if_pos h, Nat.shiftRight_eq_div_pow]
    apply Nat.mod_eq_of_lt
    have h1 : x / 2 ^ (W - K) < 2 ^ K := by
      apply Nat.div_lt_of_lt_mul
      have hWK : (W - K) + K = W := by omega
      calc x < 2 ^ W := hx
        _ = 2 ^ (W - K) * 2 ^ K := by rw [← pow_add, hWK]
    exact Nat.lt_of_lt_of_le h1 (Nat.pow_le_pow_right (by norm_num) hK)
  · rw [if_neg h, if_neg h, Nat.shiftLeft_eq]
    have h1 : x * 2 ^ (K - W) < 2 ^ K := by
      have h2 : x * 2 ^ (K - W) < 2 ^ W * 2 ^ (K - W) :=
        mul_lt_mul_of_pos_right hx (Nat.pos_pow_of_pos _ (by norm_num))
      have hWK : W + (K - W) = K := by omega
      calc x * 2 ^ (K - W) < 2 ^ W * 2 ^ (K - W) := h2
        _ = 2 ^ K := by rw [← pow_add, hWK]
    have h32 : x * 2 ^ (K - W) < 2 ^ 32 :=
      Nat.lt_of_lt_of_le h1 (Nat.pow_le_pow_right (by norm_num) hK)
    have h64 : x * 2 ^ (K - W) < 2 ^ 64 :=
      Nat.lt_of_lt_of_le h32 (Nat.pow_le_pow_right (by norm_num) (by norm_num))
    rw [Nat.mod_eq_of_lt h64, Nat.mod_eq_of_lt h32]

theorem prefix_u64_lt (x W K : Nat) (hx : x < 2 ^ W) (hK : K ≤ 32) :
    prefix_u64 x W K < 2 ^ K := by
  rw [prefix_u64_eq x W K hx hK]
  by_cases h : K ≤ W
  · rw [if_pos h]
    apply Nat.div_lt_of_lt_mul
    have hWK : (W - K) + K = W := by omega
    calc x < 2 ^ W := hx
      _ = 2 ^ (W - K) * 2 ^ K := by rw [← pow_add, hWK]
  · rw [if_neg h]
    have h2 : x * 2 ^ (K - W) < 2 ^ W * 2 ^ (K - W) :=
      mul_lt_mul_of_pos_right hx (Nat.pos_pow_of_pos _ (by norm_num))
    have hWK : W + (K - W) = K := by omega
    calc x * 2 ^ (K - W) < 2 ^ W * 2 ^ (K - W) := h2
      _ = 2 ^ K := by rw [← pow_add, hWK]

theorem prefix_u64_le_prefix_u64 (u v W K : Nat) (huv : u ≤ v) (hv : v < 2 ^ W)
    (hK : K ≤ 32) : prefix_u64 u W K ≤ prefix_u64 v W K := by
  have hu : u < 2 ^ W := Nat.lt_of_le_of_lt huv hv
  rw [prefix_u64_eq u W K hu hK, prefix_u64_eq v W K hv hK]
  by_cases h : K ≤ W
  · rw [if_pos h, if_pos h]
    exact Nat.div_le_div_right huv
  · rw [if_neg h, if_neg h]
    exact Nat.mul_le_mul_right _ huv

/-! ### Binary-search loop invariants -/

theorem lower_bound_go_bounds (a : List Nat) (x : Nat) :
    ∀ fuel lo hi, lo ≤ hi →
      lo ≤ lower_bound_go a x fuel lo hi ∧ lower_bound_go a x fuel lo hi ≤ hi := by
  intro fuel
  induction fuel with
  | zero =>
    intro lo hi h
    exact ⟨Nat.le_refl _, h⟩
  | succ fuel ih =>
    intro lo hi h
    rw [lower_bound_go]
    by_cases h1 : lo < hi
    · rw [if_pos h1]
      have hm : lo + (hi - lo) / 2 < hi := by
        have h2 : (hi - lo) / 2 < hi - lo :=
          Nat.div_lt_self (by omega) (by omega)
        omega
      by_cases h2 : a.getD (lo + (hi - lo) / 2) 0 < x
      · rw [if_pos h2]
        have := ih (lo + (hi - lo) / 2 + 1) hi (by omega)
        omega
      · rw [if_neg h2]
        have := ih lo (lo + (hi - lo) / 2) (by omega)
        omega
    · rw [if_neg h1]
      omega

theorem lower_bound_u64_bounds (a : List Nat) (lo hi x : Nat) :
    lo ≤ hi → lo ≤ lower_bound_u64 a lo hi x ∧ lower_bound_u64 a lo hi x ≤ hi :=
  fun h => lower_bound_go_bounds a x (hi - lo) lo hi h

theorem lower_bound_go_getD_lt (a : List Nat) (hs : a.Sorted (· ≤ ·)) (x : Nat) :
    ∀ fuel lo hi, hi ≤ a.length →
      ∀ j, lo ≤ j → j < lower_bound_go a x fuel lo hi → a.getD j 0 < x := by
  intro fuel
  induction fuel with
  | zero =>
    intro lo hi _ j hj hjr
    simp only [lower_bound_go] at hjr
    omega
  | succ fuel ih =>
    intro lo hi hhi j hj hjr
    rw [lower_bound_go] at hjr
    by_cases h1 : lo < hi
    · rw [if_pos h1] at hjr
      have hm : lo + (hi - lo) / 2 < hi := by
        have h2 : (hi - lo) / 2 < hi - lo :=
          Nat.div_lt_self (by omega) (by omega)
        omega
      by_cases h2 : a.getD (lo + (hi - lo) / 2) 0 < x
      · rw [if_pos h2] at hjr
        by_cases hjm : j ≤ lo + (hi - lo) / 2
        · exact Nat.lt_of_le_of_lt
            (sorted_getD_le a hs j (lo + (hi - lo) / 2) hjm (by omega)) h2
        · exact ih (lo + (hi - lo) / 2 + 1) hi hhi j (by omega) hjr
      · rw [if_neg h2] at hjr
        exact ih lo (lo + (hi - lo) / 2) (by omega) j hj hjr
    · rw [if_neg h1] at hjr
      omega

theorem lower_bound_u64_getD_lt (a : List Nat) (hs : a.Sorted (· ≤ ·))
    (lo hi x : Nat) :
    hi ≤ a.length →
      ∀ j, lo ≤ j → j < lower_bound_u64 a lo hi x → a.getD j 0 < x :=
  fun hhi => lower_bound_go_getD_lt a hs x (hi - lo) lo hi hhi

theorem lower_bound_go_ge (a : List Nat) (x : Nat) :
    ∀ fuel lo hi, hi - lo ≤ fuel → lower_bound_go a x fuel lo hi < hi →
      x ≤ a.getD (lower_bound_go a x fuel lo hi) 0 := by
  intro fuel
  induction fuel with
  | zero =>
    intro lo hi hfuel hr
    simp only [lower_bound_go] at hr
    omega
  | succ fuel ih =>
    intro lo hi hfuel hr
    rw [lower_bound_go] at hr ⊢
    by_cases h1 : lo < hi
    · rw [if_pos h1] at hr ⊢
      have hm : lo + (hi - lo) / 2 < hi := by
        have h2 : (hi - lo) / 2 < hi - lo :=
          Nat.div_lt_self (by omega) (by omega)
        omega
      by_cases h2 : a.getD (lo + (hi - lo) / 2) 0 < x
      · rw [if_pos h2] at hr ⊢
        exact ih (lo + (hi - lo) / 2 + 1) hi (by omega) hr
      · rw [if_neg h2] at hr ⊢
        have hb := lower_bound_go_bounds a x fuel lo (lo + (hi - lo) / 2)
          (by omega)
        rcases Nat.lt_or_ge (lower_bound_go a x fuel lo (lo + (hi - lo) / 2))
            (lo + (hi - lo) / 2) with h | h
        · exact ih lo (lo + (hi - lo) / 2) (by omega) h
        · have heq : lower_bound_go a x fuel lo (lo + (hi - lo) / 2) =
              lo + (hi - lo) / 2 := by omega
          rw [heq]
          omega
    · rw [if_neg h1] at hr
      omega

theorem lower_bound_u64_ge (a : List Nat) (lo hi x : Nat) :
    lower_bound_u64 a lo hi x < hi →
      x ≤ a.getD (lower_bound_u64 a lo hi x) 0 :=
  fun hr => lower_bound_go_ge a x (hi - lo) lo hi (Nat.le_refl _) hr

/-! ### Counting in a sorted list

In a sorted list the elements below a threshold `q` form a prefix, so the
count of elements below `q` is exactly the first index whose element is at
least `q`. -/

theorem sorted_countP_lt_le_iff (b : List Nat) (hb : b.Sorted (· ≤ ·)) (q : Nat) :
    ∀ i, i < b.length →
      (b.countP (fun v => decide (v < q)) ≤ i ↔ q ≤ b.getD i 0) := by
  induction b with
  | nil =>
    intro i hi
    simp at hi
  | cons y bs ih =>
    rw [List.sorted_cons] at hb
    obtain ⟨hy, hbs⟩ := hb
    intro i hi
    by_cases hyq : y < q
    · rw [List.countP_cons_of_pos _ _ (by simpa using hyq)]
      cases i with
      | zero =>
        simp only [List.getD_cons_zero]
        omega
      | succ j =>
        have hj : j < bs.length := by simpa using hi
        rw [List.getD_cons_succ]
        have hcnt := ih hbs j hj
        omega
    · have hcnt : (y :: bs).countP (fun v => decide (v < q)) = 0 := by
        rw [List.countP_eq_zero]
        intro v hv
        simp only [decide_eq_true_eq]
        rcases List.mem_cons.mp hv with rfl | hv2
        · omega
        · have := hy v hv2
          omega
      rw [hcnt]
      cases i with
      | zero =>
        simp only [List.getD_cons_zero]
        omega
      | succ j =>
        have hj : j < bs.length := by simpa using hi
        rw [List.getD_cons_succ]
        have hmem := hy (bs.getD j 0) (getD_mem_of_lt bs j hj)
        omega

theorem sorted_countP_getD_eq_iff (b : List Nat) (hb : b.Sorted (· ≤ ·))
    (p i : Nat) (hi : i < b.length) :
    b.getD i 0 = p ↔
      b.countP (fun v => decide (v < p)) ≤ i ∧
        i < b.countP (fun v => decide (v < p + 1)) := by
  have h1 := sorted_countP_lt_le_iff b hb p i hi
  have h2 := sorted_countP_lt_le_iff b hb (p + 1) i hi
  omega

/-! ### The prefix-count function `bcnt` -/

theorem bcnt_le_length (a : List Nat) (W K q : Nat) : bcnt a W K q ≤ a.length :=
  List.countP_le_length _

theorem bcnt_mono (a : List Nat) (W K q r : Nat) (h : q ≤ r) :
    bcnt a W K q ≤ bcnt a W K r := by
  apply List.countP_mono_left
  intro v _ hv
  simp only [decide_eq_true_eq] at *
  omega

theorem bcnt_eq_length (a : List Nat) (W K q : Nat)
    (h : ∀ v ∈ a, prefix_u64 v W K < q) : bcnt a W K q = a.length := by
  rw [bcnt, List.countP_eq_length]
  intro v hv
  simpa using h v hv

theorem bcnt_succ_of_not_occ (a : List Nat) (W K p : Nat)
    (h : ∀ v ∈ a, prefix_u64 v W K ≠ p) :
    bcnt a W K (p + 1) = bcnt a W K p := by
  unfold bcnt
  induction a with
  | nil => simp
  | cons y t ih =>
    have hy := h y (List.mem_cons_self y t)
    have ht : ∀ v ∈ t, prefix_u64 v W K ≠ p := fun v hv =>
      h v (List.mem_cons_of_mem y hv)
    rw [List.countP_cons, List.countP_cons, ih ht]
    by_cases h1 : prefix_u64 y W K < p
    · rw [if_pos (by simpa using (by omega : prefix_u64 y W K < p + 1)),
        if_pos (by simpa using h1)]
    · rw [if_neg (by simp only [decide_eq_true_eq]; omega),
        if_neg (by simpa using h1)]

theorem bcnt_eq_countP_map (a : List Nat) (W K q : Nat) :
    (a.map (fun v => prefix_u64 v W K)).countP (fun v => decide (v < q)) =
      bcnt a W K q := by
  rw [List.countP_map]
  rfl

theorem getD_map_prefix_u64 (a : List Nat) (W K i : Nat) (hi : i < a.length) :
    (a.map (fun v => prefix_u64 v W K)).getD i 0 =
      prefix_u64 (a.getD i 0) W K := by
  rw [getD_eq_get _ i (by simpa using hi), getD_eq_get a i hi]
  simp

theorem map_prefix_sorted (a : List Nat) (W K : Nat) (hs : a.Sorted (· ≤ ·))
    (hK : K ≤ 32) (hbound : ∀ v ∈ a, v < 2 ^ W) :
    (a.map (fun v => prefix_u64 v W K)).Sorted (· ≤ ·) := by
  rw [List.Sorted, List.pairwise_map]
  refine List.Pairwise.imp_of_mem ?_ hs
  intro u v hu hv huv
  exact prefix_u64_le_prefix_u64 u v W K huv (hbound v hv) hK

theorem first_occ_eq_bcnt (a : List Nat) (W K : Nat) (hs : a.Sorted (· ≤ ·))
    (hK : K ≤ 32) (hbound : ∀ v ∈ a, v < 2 ^ W) (p i : Nat) (hi : i < a.length)
    (hp : prefix_u64 (a.getD i 0) W K = p)
    (hmin : ∀ j, j < i → prefix_u64 (a.getD j 0) W K ≠ p) :
    i = bcnt a W K p := by
  have hbs := map_prefix_sorted a W K hs hK hbound
  have hlen : (a.map (fun v => prefix_u64 v W K)).length = a.length := by simp
  have h1 := sorted_countP_lt_le_iff (a.map (fun v => prefix_u64 v W K)) hbs p i
    (by omega)
  rw [getD_map_prefix_u64 a W K i hi, hp, bcnt_eq_countP_map] at h1
  have hle : bcnt a W K p ≤ i := h1.mpr (Nat.le_refl p)
  rcases Nat.eq_or_lt_of_le hle with h | h
  · omega
  · exfalso
    have hj : bcnt a W K p < a.length := by omega
    have h2 := sorted_countP_lt_le_iff (a.map (fun v => prefix_u64 v W K)) hbs p
      (bcnt a W K p) (by omega)
    rw [getD_map_prefix_u64 a W K (bcnt a W K p) hj, bcnt_eq_countP_map] at h2
    have hge : p ≤ prefix_u64 (a.getD (bcnt a W K p) 0) W K :=
      h2.mp (Nat.le_refl _)
    have hlt : prefix_u64 (a.getD (bcnt a W K p) 0) W K ≤
        prefix_u64 (a.getD i 0) W K := by
      have := sorted_getD_le a hs (bcnt a W K p) i (by omega) hi
      exact prefix_u64_le_prefix_u64 _ _ W K this
        (hbound (a.getD i 0) (getD_mem_of_lt a i hi)) hK
    exact hmin (bcnt a W K p) h (by omega)

/-! ### The three passes of `build` -/

theorem foldl_set_length (s : List Nat) (v : Nat) :
    ∀ m, ((List.range m).foldl (fun t p => t.set p v) s).length = s.length := by
  intro m
  induction m with
  | zero => rfl
  | succ m ih =>
    rw [List.range_succ, List.foldl_append, List.foldl_cons, List.foldl_nil,
      List.length_set, ih]

theorem foldl_set_getD (s : List Nat) (v : Nat) :
    ∀ m q, ((List.range m).foldl (fun t p => t.set p v) s).getD q 0 =
      if q < m ∧ q < s.length then v else s.getD q 0 := by
  intro m
  induction m with
  | zero =>
    intro q
    simp
  | succ m ih =>
    intro q
    rw [List.range_succ, List.foldl_append, List.foldl_cons, List.foldl_nil]
    by_cases hqm : q = m
    · subst hqm
      by_cases hql : q < s.length
      · rw [getD_set_self _ q v (by rw [foldl_set_length]; exact hql),
          if_pos ⟨by omega, hql⟩]
      · rw [List.set_eq_of_length_le (by rw [foldl_set_length]; omega), ih,
          if_neg (by omega), if_neg (by omega)]
    · rw [getD_set_ne _ m q v (by omega), ih]
      by_cases h1 : q < m ∧ q < s.length
      · rw [if_pos h1, if_pos ⟨by omega, h1.2⟩]
      · rw [if_neg h1, if_neg (by omega)]

theorem buildStep_length (a : List Nat) (W K n : Nat) (t : List Nat) (i : Nat) :
    (buildStep a W K n t i).length = t.length := by
  unfold buildStep
  split
  · rw [List.length_set]
  · rfl

theorem buildStep_getD_ne (a : List Nat) (W K n : Nat) (t : List Nat) (i p : Nat)
    (h : prefix_u64 (a.getD i 0) W K ≠ p) :
    (buildStep a W K n t i).getD p 0 = t.getD p 0 := by
  unfold buildStep
  split
  · exact getD_set_ne t _ p i h
  · rfl

theorem buildStep_getD_unset (a : List Nat) (W K n : Nat) (t : List Nat) (i : Nat)
    (h : t.getD (prefix_u64 (a.getD i 0) W K) 0 = n)
    (hlt : prefix_u64 (a.getD i 0) W K < t.length) :
    (buildStep a W K n t i).getD (prefix_u64 (a.getD i 0) W K) 0 = i := by
  unfold buildStep
  rw [if_pos h]
  exact getD_set_self t _ i hlt

theorem buildStep_eq_of_set (a : List Nat) (W K n : Nat) (t : List Nat) (i : Nat)
    (h : t.getD (prefix_u64 (a.getD i 0) W K) 0 ≠ n) :
    buildStep a W K n t i = t := by
  unfold buildStep
  rw [if_neg h]

theorem foldl_buildStep_length (a : List Nat) (W K n : Nat) (t1 : List Nat) :
    ∀ m, ((List.range m).foldl (buildStep a W K n) t1).length = t1.length := by
  intro m
  induction m with
  | zero => rfl
  | succ m ih =>
    rw [List.range_succ, List.foldl_append, List.foldl_cons, List.foldl_nil,
      buildStep_length, ih]

theorem forward_pass_getD (a : List Nat) (W K n B' : Nat) (t1 : List Nat)
    (hlen : t1.length = B' + 1)
    (hinit : ∀ p, p ≤ B' → t1.getD p 0 = n)
    (hf : ∀ i, i < n → prefix_u64 (a.getD i 0) W K < B') :
    ∀ m, m ≤ n → ∀ p, p ≤ B' →
      (((List.range m).foldl (buildStep a W K n) t1).getD p 0 = n ∧
        ∀ i, i < m → prefix_u64 (a.getD i 0) W K ≠ p) ∨
      (∃ i, i < m ∧ prefix_u64 (a.getD i 0) W K = p ∧
        (∀ j, j < i → prefix_u64 (a.getD j 0) W K ≠ p) ∧
        ((List.range m).foldl (buildStep a W K n) t1).getD p 0 = i) := by
  intro m
  induction m with
  | zero =>
    intro _ p hp
    left
    exact ⟨hinit p hp, fun i hi => absurd hi (Nat.not_lt_zero i)⟩
  | succ m ih =>
    intro hm p hp
    have hm' : m ≤ n := by omega
    have hplt := hf m (by omega)
    rw [List.range_succ, List.foldl_append, List.foldl_cons, List.foldl_nil]
    by_cases hpp : prefix_u64 (a.getD m 0) W K = p
    · rcases ih hm' p hp with ⟨hval, hnone⟩ | ⟨i, hi, hfi, hmin, hval⟩
      · right
        refine ⟨m, by omega, hpp, hnone, ?_⟩
        rw [← hpp]
        apply buildStep_getD_unset
        · rw [hpp]
          exact hval
        · rw [foldl_buildStep_length, hlen]
          omega
      · right
        refine ⟨i, by omega, hfi, hmin, ?_⟩
        rw [buildStep_eq_of_set a W K n _ m (by rw [hpp, hval]; omega)]
        exact hval
    · rw [buildStep_getD_ne a W K n _ m p hpp]
      rcases ih hm' p hp with ⟨hval, hnone⟩ | ⟨i, hi, hfi, hmin, hval⟩
      · left
        refine ⟨hval, fun i hi2 => ?_⟩
        rcases Nat.lt_or_ge i m with h | h
        · exact hnone i h
        · have : i = m := by omega
          subst this
          exact hpp
      · right
        exact ⟨i, by omega, hfi, hmin, hval⟩

theorem fillBack_length (n : Nat) :
    ∀ c (t : List Nat) (last : Nat), (fillBack n t last c).length = t.length := by
  intro c
  induction c with
  | zero =>
    intro t last
    rfl
  | succ p ih =>
    intro t last
    unfold fillBack
    split
    · rw [ih, List.length_set]
    · rw [ih]

theorem fillBack_getD (n : Nat) (g : Nat → Nat) :
    ∀ (c : Nat) (t : List Nat) (last : Nat),
      c ≤ t.length →
      (∀ q, q < c →
        (t.getD q 0 = n ∧ g q = g (q + 1)) ∨
        (t.getD q 0 = g q ∧ t.getD q 0 ≠ n)) →
      last = g c →
      ∀ q, (fillBack n t last c).getD q 0 =
        if q < c then g q else t.getD q 0 := by
  intro c
  induction c with
  | zero =>
    intro t last _ _ _ q
    rw [if_neg (by omega)]
    rfl
  | succ p ih =>
    intro t last hlen hpre hlast q
    unfold fillBack
    by_cases hcase : t.getD p 0 = n
    · rw [if_pos hcase]
      have hgp : g p = g (p + 1) := by
        rcases hpre p (by omega) with ⟨_, h⟩ | ⟨_, hne⟩
        · exact h
        · exact absurd hcase hne
      have hpre2 : ∀ r, r < p →
          ((t.set p last).getD r 0 = n ∧ g r = g (r + 1)) ∨
          ((t.set p last).getD r 0 = g r ∧ (t.set p last).getD r 0 ≠ n) := by
        intro r hr
        rw [getD_set_ne t p r last (by omega)]
        exact hpre r (by omega)
      have hih := ih (t.set p last) last (by rw [List.length_set]; omega)
        hpre2 (by omega) q
      rw [hih]
      by_cases hq : q < p
      · rw [if_pos hq, if_pos (by omega)]
      · rw [if_neg hq]
        by_cases hq2 : q = p
        · subst hq2
          rw [if_pos (by omega), getD_set_self t q last (by omega)]
          omega
        · rw [getD_set_ne t p q last (by omega), if_neg (by omega)]
    · rw [if_neg hcase]
      have hval : t.getD p 0 = g p := by
        rcases hpre p (by omega) with ⟨h, _⟩ | ⟨h, _⟩
        · exact absurd h hcase
        · exact h
      have hih := ih t (t.getD p 0) (by omega)
        (fun r hr => hpre r (by omega)) hval q
      rw [hih]
      by_cases hq : q < p
      · rw [if_pos hq, if_pos (by omega)]
      · rw [if_neg hq]
        by_cases hq2 : q = p
        · subst hq2
          rw [if_pos (by omega)]
          exact hval
        · rw [if_neg (by omega)]

/-! ### The built table holds prefix counts

After a successful `build` over a sorted sequence, entry `p` of the table is
exactly the number of elements whose routing prefix is below `p`. -/

theorem build_table_getD (a : List Nat) (K : Nat) (s ts : List Nat)
    (hsort : a.Sorted (· ≤ ·)) (hu64 : ∀ v ∈ a, v < 2 ^ 64)
    (hK1 : 1 ≤ K) (hK2 : K ≤ 24)
    (hs : s.length = 2 ^ K + 1)
    (hb : bucketsearch_u64_build a K (some s) = (0, some ts)) :
    ts.length = 2 ^ K + 1 ∧
      ∀ p, p ≤ 2 ^ K →
        ts.getD p 0 =
          bcnt a (bit_width_u64 (if a.length ≠ 0 then a.getD (a.length - 1) 0
            else 0)) K p := by
  have hKc : ¬(K = 0 ∨ 24 < K) := by omega
  simp only [bucketsearch_u64_build, if_neg hKc, Prod.mk.injEq,
    Option.some.injEq] at hb
  obtain ⟨-, hts⟩ := hb
  set W := bit_width_u64 (if a.length ≠ 0 then a.getD (a.length - 1) 0 else 0)
    with hW
  have hbound : ∀ v ∈ a, v < 2 ^ W := by
    intro v hv
    have hne : a.length ≠ 0 := by
      cases a
      · simp at hv
      · simp
    have hW2 : W = bit_width_u64 (a.getD (a.length - 1) 0) := by
      rw [hW, if_pos hne]
    rw [hW2]
    have hlast : a.getD (a.length - 1) 0 < 2 ^ 64 :=
      hu64 _ (getD_mem_of_lt a _ (by omega))
    exact Nat.lt_of_le_of_lt (mem_le_last a hsort v hv)
      (lt_two_pow_bit_width _ hlast)
  have hK32 : K ≤ 32 := by omega
  have hf : ∀ i, i < a.length → prefix_u64 (a.getD i 0) W K < 2 ^ K := by
    intro i hi
    exact prefix_u64_lt _ W K (hbound _ (getD_mem_of_lt a i hi)) hK32
  have ht1len : ((List.range (2 ^ K + 1)).foldl
      (fun t p => t.set p a.length) s).length = 2 ^ K + 1 := by
    rw [foldl_set_length, hs]
  have ht1 : ∀ p, p ≤ 2 ^ K → ((List.range (2 ^ K + 1)).foldl
      (fun t p => t.set p a.length) s).getD p 0 = a.length := by
    intro p hp
    rw [foldl_set_getD, if_pos ⟨by omega, by omega⟩]
  have hfwd := forward_pass_getD a W K a.length (2 ^ K) _ ht1len ht1 hf
    a.length (Nat.le_refl _)
  have ht2len : ((List.range a.length).foldl (buildStep a W K a.length)
      ((List.range (2 ^ K + 1)).foldl (fun t p => t.set p a.length) s)).length
      = 2 ^ K + 1 := by
    rw [foldl_buildStep_length, ht1len]
  have hBcnt : bcnt a W K (2 ^ K) = a.length := by
    apply bcnt_eq_length
    intro v hv
    exact prefix_u64_lt _ W K (hbound _ hv) hK32
  have ht3B : ((((List.range a.length).foldl (buildStep a W K a.length)
      ((List.range (2 ^ K + 1)).foldl (fun t p => t.set p a.length) s))).set
      (2 ^ K) a.length).getD (2 ^ K) 0 = a.length :=
    getD_set_self _ _ _ (by rw [ht2len]; omega)
  have hpre : ∀ q, q < 2 ^ K →
      (((((List.range a.length).foldl (buildStep a W K a.length)
        ((List.range (2 ^ K + 1)).foldl (fun t p => t.set p a.length) s))).set
        (2 ^ K) a.length).getD q 0 = a.length ∧
        bcnt a W K q = bcnt a W K (q + 1)) ∨
      (((((List.range a.length).foldl (buildStep a W K a.length)
        ((List.range (2 ^ K + 1)).foldl (fun t p => t.set p a.length) s))).set
        (2 ^ K) a.length).getD q 0 = bcnt a W K q ∧
        ((((List.range a.length).foldl (buildStep a W K a.length)
        ((List.range (2 ^ K + 1)).foldl (fun t p => t.set p a.length) s))).set
        (2 ^ K) a.length).getD q 0 ≠ a.length) := by
    intro q hq
    rw [getD_set_ne _ (2 ^ K) q a.length (by omega)]
    rcases hfwd q (by omega) with ⟨hval, hnone⟩ | ⟨i, hi, hfi, hmin, hval⟩
    · left
      refine ⟨hval, ?_⟩
      have : ∀ v ∈ a, prefix_u64 v W K ≠ q := by
        intro v hv
        obtain ⟨i, hi, hv2⟩ := List.getElem_of_mem hv
        rw [← hv2, ← getD_eq_get a i hi]
        exact hnone i hi
      exact (bcnt_succ_of_not_occ a W K q this).symm
    · right
      have hieq : i = bcnt a W K q :=
        first_occ_eq_bcnt a W K hsort hK32 hbound q i (by omega) hfi hmin
      rw [hval]
      exact ⟨hieq, by omega⟩
  have hfb := fillBack_getD a.length (bcnt a W K) (2 ^ K) _ a.length
    (by rw [List.length_set, ht2len]; omega) hpre hBcnt.symm
  constructor
  · rw [← hts, fillBack_length, List.length_set, ht2len]
  · intro p hp
    rw [← hts, hfb p]
    rcases Nat.lt_or_ge p (2 ^ K) with h | h
    · rw [if_pos h]
    · have hpB : p = 2 ^ K := by omega
      rw [if_neg (by omega), hpB, ht3B, hBcnt]

/-! ### Behaviour of `find` against a prefix-count table -/

theorem find_mem_aux (a : List Nat) (K : Nat) (ts : List Nat) (x : Nat)
    (hsort : a.Sorted (· ≤ ·)) (hu64 : ∀ v ∈ a, v < 2 ^ 64)
    (hK1 : 1 ≤ K) (hK2 : K ≤ 24)
    (htable : ∀ p, p ≤ 2 ^ K →
      ts.getD p 0 = bcnt a (bit_width_u64 (a.getD (a.length - 1) 0)) K p)
    (hx : x ∈ a) :
    ∃ i : Nat, bucketsearch_u64_find a K ts x = (i : Int) ∧
      i < a.length ∧ a.getD i 0 = x := by
  have hn : a.length ≠ 0 := by
    cases a
    · simp at hx
    · simp
  have hKc : ¬(K = 0 ∨ 24 < K) := by omega
  have hK32 : K ≤ 32 := by omega
  set W := bit_width_u64 (a.getD (a.length - 1) 0) with hW
  have hbound : ∀ v ∈ a, v < 2 ^ W := fun v hv =>
    Nat.lt_of_le_of_lt (mem_le_last a hsort v hv)
      (lt_two_pow_bit_width _ (hu64 _ (getD_mem_of_lt a _ (by omega))))
  have hplt : prefix_u64 x W K < 2 ^ K := prefix_u64_lt x W K (hbound x hx) hK32
  obtain ⟨j, hj, hja⟩ := List.getElem_of_mem hx
  have hjD : a.getD j 0 = x := by rw [getD_eq_get a j hj, hja]
  have hfj : prefix_u64 (a.getD j 0) W K = prefix_u64 x W K := by rw [hjD]
  have hbs := map_prefix_sorted a W K hsort hK32 hbound
  have h1 := sorted_countP_lt_le_iff (a.map (fun v => prefix_u64 v W K)) hbs
    (prefix_u64 x W K) j (by simpa using hj)
  have h2 := sorted_countP_lt_le_iff (a.map (fun v => prefix_u64 v W K)) hbs
    (prefix_u64 x W K + 1) j (by simpa using hj)
  rw [getD_map_prefix_u64 a W K j hj, hfj, bcnt_eq_countP_map] at h1 h2
  have hlo_j : bcnt a W K (prefix_u64 x W K) ≤ j := by omega
  have hj_hi : j < bcnt a W K (prefix_u64 x W K + 1) := by omega
  have hloeq : ts.getD (prefix_u64 x W K) 0 = bcnt a W K (prefix_u64 x W K) :=
    htable _ (by omega)
  have hhieq : ts.getD (prefix_u64 x W K + 1) 0 =
      bcnt a W K (prefix_u64 x W K + 1) := htable _ (by omega)
  have hhi_n : bcnt a W K (prefix_u64 x W K + 1) ≤ a.length :=
    bcnt_le_length a W K _
  have hq1 : a.getD (ts.getD (prefix_u64 x W K) 0) 0 ≤ x := by
    have := sorted_getD_le a hsort (ts.getD (prefix_u64 x W K) 0) j
      (by omega) hj
    omega
  have hq2 : x ≤ a.getD (ts.getD (prefix_u64 x W K + 1) 0 - 1) 0 := by
    have := sorted_getD_le a hsort j (ts.getD (prefix_u64 x W K + 1) 0 - 1)
      (by omega) (by omega)
    omega
  have hb := lower_bound_u64_bounds a (ts.getD (prefix_u64 x W K) 0)
    (ts.getD (prefix_u64 x W K + 1) 0) x (by omega)
  have hrj : lower_bound_u64 a (ts.getD (prefix_u64 x W K) 0)
      (ts.getD (prefix_u64 x W K + 1) 0) x ≤ j := by
    by_contra hcon
    push_neg at hcon
    have := lower_bound_u64_getD_lt a hsort (ts.getD (prefix_u64 x W K) 0)
      (ts.getD (prefix_u64 x W K + 1) 0) x (by omega) j (by omega) hcon
    omega
  have hrhi : lower_bound_u64 a (ts.getD (prefix_u64 x W K) 0)
      (ts.getD (prefix_u64 x W K + 1) 0) x <
      ts.getD (prefix_u64 x W K + 1) 0 := by omega
  have hge := lower_bound_u64_ge a (ts.getD (prefix_u64 x W K) 0)
    (ts.getD (prefix_u64 x W K + 1) 0) x hrhi
  have hle : a.getD (lower_bound_u64 a (ts.getD (prefix_u64 x W K) 0)
      (ts.getD (prefix_u64 x W K + 1) 0) x) 0 ≤ x := by
    have := sorted_getD_le a hsort (lower_bound_u64 a
      (ts.getD (prefix_u64 x W K) 0) (ts.getD (prefix_u64 x W K + 1) 0) x) j
      hrj hj
    omega
  have heq : a.getD (lower_bound_u64 a (ts.getD (prefix_u64 x W K) 0)
      (ts.getD (prefix_u64 x W K + 1) 0) x) 0 = x := by omega
  refine ⟨lower_bound_u64 a (ts.getD (prefix_u64 x W K) 0)
    (ts.getD (prefix_u64 x W K + 1) 0) x, ?_, by omega, heq⟩
  simp only [bucketsearch_u64_find]
  rw [← hW, if_neg hn, if_neg hKc, if_neg (by omega : ¬ 2 ^ K ≤ prefix_u64 x W K),
    if_neg (by omega : ¬ ts.getD (prefix_u64 x W K) 0 =
      ts.getD (prefix_u64 x W K + 1) 0),
    if_neg (by omega : ¬ (x < a.getD (ts.getD (prefix_u64 x W K) 0) 0 ∨
      a.getD (ts.getD (prefix_u64 x W K + 1) 0 - 1) 0 < x)),
    if_pos ⟨by omega, heq⟩]

theorem find_not_mem_aux (a : List Nat) (K : Nat) (ts : List Nat) (x : Nat)
    (hK1 : 1 ≤ K) (hK2 : K ≤ 24)
    (htable : ∀ p, p ≤ 2 ^ K →
      ts.getD p 0 = bcnt a (bit_width_u64 (a.getD (a.length - 1) 0)) K p)
    (hx : x ∉ a) :
    bucketsearch_u64_find a K ts x = -1 := by
  by_cases hn : a.length = 0
  · simp only [bucketsearch_u64_find]
    rw [if_pos hn]
  · have hKc : ¬(K = 0 ∨ 24 < K) := by omega
    set W := bit_width_u64 (a.getD (a.length - 1) 0) with hW
    simp only [bucketsearch_u64_find]
    rw [← hW, if_neg hn, if_neg hKc]
    by_cases hp : 2 ^ K ≤ prefix_u64 x W K
    · rw [if_pos hp]
    · rw [if_neg hp]
      have hloeq : ts.getD (prefix_u64 x W K) 0 =
          bcnt a W K (prefix_u64 x W K) := htable _ (by omega)
      have hhieq : ts.getD (prefix_u64 x W K + 1) 0 =
          bcnt a W K (prefix_u64 x W K + 1) := htable _ (by omega)
      have hlohi : bcnt a W K (prefix_u64 x W K) ≤
          bcnt a W K (prefix_u64 x W K + 1) := bcnt_mono a W K _ _ (by omega)
      have hhin : bcnt a W K (prefix_u64 x W K + 1) ≤ a.length :=
        bcnt_le_length a W K _
      by_cases hlh : ts.getD (prefix_u64 x W K) 0 =
          ts.getD (prefix_u64 x W K + 1) 0
      · rw [if_pos hlh]
      · rw [if_neg hlh]
        by_cases hrej : x < a.getD (ts.getD (prefix_u64 x W K) 0) 0 ∨
            a.getD (ts.getD (prefix_u64 x W K + 1) 0 - 1) 0 < x
        · rw [if_pos hrej]
        · rw [if_neg hrej]
          have hb := lower_bound_u64_bounds a (ts.getD (prefix_u64 x W K) 0)
            (ts.getD (prefix_u64 x W K + 1) 0) x (by omega)
          have hcond : ¬ (lower_bound_u64 a (ts.getD (prefix_u64 x W K) 0)
              (ts.getD (prefix_u64 x W K + 1) 0) x ≠
                ts.getD (prefix_u64 x W K + 1) 0 ∧
              a.getD (lower_bound_u64 a (ts.getD (prefix_u64 x W K) 0)
                (ts.getD (prefix_u64 x W K + 1) 0) x) 0 = x) := by
            rintro ⟨hne, heq⟩
            have hr : lower_bound_u64 a (ts.getD (prefix_u64 x W K) 0)
                (ts.getD (prefix_u64 x W K + 1) 0) x < a.length := by omega
            exact hx (heq ▸ getD_mem_of_lt a _ hr)
          rw [if_neg hcond]

theorem binary_find_mem_aux (a : List Nat) (x : Nat)
    (hsort : a.Sorted (· ≤ ·)) (hx : x ∈ a) :
    ∃ j : Nat, binary_find_u64 a x = (j : Int) ∧
      j < a.length ∧ a.getD j 0 = x := by
  obtain ⟨j, hj, hja⟩ := List.getElem_of_mem hx
  have hjD : a.getD j 0 = x := by rw [getD_eq_get a j hj, hja]
  have hb := lower_bound_u64_bounds a 0 a.length x (by omega)
  have hrj : lower_bound_u64 a 0 a.length x ≤ j := by
    by_contra hcon
    push_neg at hcon
    have := lower_bound_u64_getD_lt a hsort 0 a.length x (Nat.le_refl _) j
      (by omega) hcon
    omega
  have hrn : lower_bound_u64 a 0 a.length x < a.length := by omega
  have hge := lower_bound_u64_ge a 0 a.length x hrn
  have hle : a.getD (lower_bound_u64 a 0 a.length x) 0 ≤ x := by
    have := sorted_getD_le a hsort (lower_bound_u64 a 0 a.length x) j hrj hj
    omega
  have heq : a.getD (lower_bound_u64 a 0 a.length x) 0 = x := by omega
  refine ⟨lower_bound_u64 a 0 a.length x, ?_, hrn, heq⟩
  simp only [binary_find_u64]
  rw [if_pos ⟨hrn, heq⟩]

theorem binary_find_not_mem_aux (a : List Nat) (x : Nat) (hx : x ∉ a) :
    binary_find_u64 a x = -1 := by
  simp only [binary_find_u64]
  have hcond : ¬ (lower_bound_u64 a 0 a.length x < a.length ∧
      a.getD (lower_bound_u64 a 0 a.length x) 0 = x) := by
    rintro ⟨h1, h2⟩
    exact hx (h2 ▸ getD_mem_of_lt a _ h1)
  rw [if_neg hcond]

theorem build_table_find_form (a : List Nat) (K : Nat) (s ts : List Nat)
    (hsort : a.Sorted (· ≤ ·)) (hu64 : ∀ v ∈ a, v < 2 ^ 64)
    (hK1 : 1 ≤ K) (hK2 : K ≤ 24)
    (hs : s.length = 2 ^ K + 1)
    (hb : bucketsearch_u64_build a K (some s) = (0, some ts)) :
    ∀ p, p ≤ 2 ^ K →
      ts.getD p 0 = bcnt a (bit_width_u64 (a.getD (a.length - 1) 0)) K p := by
  intro p hp
  have h := (build_table_getD a K s ts hsort hu64 hK1 hK2 hs hb).2 p hp
  rcases Nat.eq_zero_or_pos a.length with h0 | h0
  · have ha : a = [] := List.eq_nil_of_length_eq_zero h0
    subst ha
    simpa [bcnt] using h
  · rw [h, if_pos (by omega)]

theorem forall_mem_lt_two_pow_W (a : List Nat) (hsort : a.Sorted (· ≤ ·))
    (hu64 : ∀ v ∈ a, v < 2 ^ 64) :
    ∀ v ∈ a, v < 2 ^ bit_width_u64 (if a.length ≠ 0 then a.getD (a.length - 1) 0
      else 0) := by
  intro v hv
  have hne : a.length ≠ 0 := by
    cases a
    · simp at hv
    · simp
  rw [if_pos hne]
  exact Nat.lt_of_le_of_lt (mem_le_last a hsort v hv)
    (lt_two_pow_bit_width _ (hu64 _ (getD_mem_of_lt a _ (by omega))))

/-! ### Claims -/

/-- C1: for every sorted (non-decreasing) sequence of u64 values, every K in
`[1, 24]`, every table produced by a successful `build` over that sequence
with that K, and every query key, `find` agrees with the reference
exact-match binary search over the full sequence: both report not-found, or
both report found and the element at `find`'s returned index equals the
key. -/
theorem find_agrees_with_binary_search (a : List Nat) (K : Nat)
    (s ts : List Nat) (x : Nat)
    (hsort : a.Sorted (· ≤ ·)) (hu64 : ∀ v ∈ a, v < 2 ^ 64)
    (hK1 : 1 ≤ K) (hK2 : K ≤ 24)
    (hs : s.length = 2 ^ K + 1)
    (hb : bucketsearch_u64_build a K (some s) = (0, some ts)) :
    (bucketsearch_u64_find a K ts x = -1 ∧ binary_find_u64 a x = -1) ∨
    (∃ i j : Nat, bucketsearch_u64_find a K ts x = (i : Int) ∧
      binary_find_u64 a x = (j : Int) ∧ a.getD i 0 = x ∧ a.getD j 0 = x) := by
  have htable := build_table_find_form a K s ts hsort hu64 hK1 hK2 hs hb
  by_cases hx : x ∈ a
  · right
    obtain ⟨i, hf, hi, hfeq⟩ :=
      find_mem_aux a K ts x hsort hu64 hK1 hK2 htable hx
    obtain ⟨j, hbf, hj, hbeq⟩ := binary_find_mem_aux a x hsort hx
    exact ⟨i, j, hf, hbf, hfeq, hbeq⟩
  · left
    exact ⟨find_not_mem_aux a K ts x hK1 hK2 htable hx,
      binary_find_not_mem_aux a x hx⟩

/-- C2: with a table produced by a successful `build` over a sorted sequence
of u64 values with K in `[1, 24]`: every key present in the sequence is found
at an index holding that key, and every absent key yields the not-found
sentinel `-1`. -/
theorem find_membership (a : List Nat) (K : Nat) (s ts : List Nat) (x : Nat)
    (hsort : a.Sorted (· ≤ ·)) (hu64 : ∀ v ∈ a, v < 2 ^ 64)
    (hK1 : 1 ≤ K) (hK2 : K ≤ 24)
    (hs : s.length = 2 ^ K + 1)
    (hb : bucketsearch_u64_build a K (some s) = (0, some ts)) :
    (x ∈ a → ∃ i : Nat, bucketsearch_u64_find a K ts x = (i : Int) ∧
      a.getD i 0 = x) ∧
    (x ∉ a → bucketsearch_u64_find a K ts x = -1) := by
  have htable := build_table_find_form a K s ts hsort hu64 hK1 hK2 hs hb
  constructor
  · intro hx
    obtain ⟨i, hf, _, hfeq⟩ :=
      find_mem_aux a K ts x hsort hu64 hK1 hK2 htable hx
    exact ⟨i, hf, hfeq⟩
  · intro hx
    exact find_not_mem_aux a K ts x hK1 hK2 htable hx

/-- C3: after a successful `build` over a sorted sequence of u64 values with
K in `[1, 24]`,
the table ends with the sentinel `n`, is monotonically non-decreasing, and for
every prefix `p` the range `[start[p], start[p+1])` contains exactly the
indices of the elements whose K-bit prefix (relative to the width W derived
from the sequence maximum) equals `p`. -/
theorem build_bucket_ranges (a : List Nat) (K : Nat) (s ts : List Nat)
    (hsort : a.Sorted (· ≤ ·)) (hu64 : ∀ v ∈ a, v < 2 ^ 64)
    (hK1 : 1 ≤ K) (hK2 : K ≤ 24)
    (hs : s.length = 2 ^ K + 1)
    (hb : bucketsearch_u64_build a K (some s) = (0, some ts)) :
    ts.getD (2 ^ K) 0 = a.length ∧
    (∀ p, p < 2 ^ K → ts.getD p 0 ≤ ts.getD (p + 1) 0) ∧
    (∀ p, p < 2 ^ K → ∀ i, i < a.length →
      (ts.getD p 0 ≤ i ∧ i < ts.getD (p + 1) 0 ↔
        prefix_u64 (a.getD i 0)
          (bit_width_u64 (if a.length ≠ 0 then a.getD (a.length - 1) 0 else 0))
          K = p)) := by
  have htable := (build_table_getD a K s ts hsort hu64 hK1 hK2 hs hb).2
  have hK32 : K ≤ 32 := by omega
  have hbound := forall_mem_lt_two_pow_W a hsort hu64
  refine ⟨?_, ?_, ?_⟩
  · rw [htable _ (Nat.le_refl _)]
    apply bcnt_eq_length
    intro v hv
    exact prefix_u64_lt _ _ K (hbound v hv) hK32
  · intro p hp
    rw [htable p (by omega), htable (p + 1) (by omega)]
    exact bcnt_mono a _ K p (p + 1) (by omega)
  · intro p hp i hi
    rw [htable p (by omega), htable (p + 1) (by omega)]
    have hbs := map_prefix_sorted a _ K hsort hK32 hbound
    have h := sorted_countP_getD_eq_iff
      (a.map (fun v => prefix_u64 v
        (bit_width_u64 (if a.length ≠ 0 then a.getD (a.length - 1) 0 else 0))
        K)) hbs p i (by simpa using hi)
    rw [getD_map_prefix_u64 a _ K i hi, bcnt_eq_countP_map, bcnt_eq_countP_map] at h
    exact h.symm

/-- C4: `build` with K = 0 or K > 24, or with an absent table pointer,
reports an error (a nonzero status) and leaves the caller-provided table
untouched. -/
theorem build_invalid_parameter (a : List Nat) (K : Nat)
    (start : Option (List Nat))
    (h : K = 0 ∨ 24 < K ∨ start = none) :
    (bucketsearch_u64_build a K start).1 ≠ 0 ∧
      (bucketsearch_u64_build a K start).2 = start := by
  match start with
  | none =>
    constructor
    · simp [bucketsearch_u64_build]
    · simp [bucketsearch_u64_build]
  | some s =>
    have hK : K = 0 ∨ 24 < K := by
      rcases h with h | h | h
      · exact Or.inl h
      · exact Or.inr h
      · exact absurd h (by simp)
    constructor
    · simp [bucketsearch_u64_build, if_pos hK]
    · simp [bucketsearch_u64_build, if_pos hK]

/-- C5 counterexample: the claim that `prefix_u64 x W K` lies in `[0, 2^K)`
for every u64 value `x`, every width `W` in `[1, 64]` and every `K` in
`[1, 24]` is false: `prefix_u64 4 1 1 = 4`, which is not below `2 ^ 1`. -/
theorem prefix_u64_range_claim_false :
    ¬ (∀ x W K : Nat, x < 2 ^ 64 → 1 ≤ W → W ≤ 64 → 1 ≤ K → K ≤ 24 →
        prefix_u64 x W K < 2 ^ K) := by
  intro h
  have := h 4 1 1 (by norm_num) (by norm_num) (by norm_num) (by norm_num)
    (by norm_num)
  exact absurd this (by decide)

/-- C5 amended: for every value `x` that fits in `W` bits (`x < 2 ^ W`) and
every `K` in `[1, 24]`, the result of `prefix_u64 x W K` lies in
`[0, 2 ^ K)`. -/
theorem prefix_u64_in_range (x W K : Nat) (hx : x < 2 ^ W) (hK1 : 1 ≤ K)
    (hK2 : K ≤ 24) : prefix_u64 x W K < 2 ^ K :=
  prefix_u64_lt x W K hx (by omega)

/-- C6: `find` returns the not-found sentinel `-1` — never a valid index and
never any other value — whenever the sequence is empty, K lies outside
`[1, 24]`, or the computed prefix of the key is at least `2 ^ K`; the result
is independent of the table, so no bucket range is consulted. -/
theorem find_validates_before_lookup (a : List Nat) (K : Nat)
    (start : List Nat) (x : Nat)
    (h : a.length = 0 ∨ K = 0 ∨ 24 < K ∨
      2 ^ K ≤ prefix_u64 x (bit_width_u64 (a.getD (a.length - 1) 0)) K) :
    bucketsearch_u64_find a K start x = -1 := by
  simp only [bucketsearch_u64_find]
  by_cases hn : a.length = 0
  · rw [if_pos hn]
  · rw [if_neg hn]
    by_cases hKc : K = 0 ∨ 24 < K
    · rw [if_pos hKc]
    · rw [if_neg hKc]
      have hp : 2 ^ K ≤ prefix_u64 x
          (bit_width_u64 (a.getD (a.length - 1) 0)) K := by
        rcases h with h | h | h | h
        · exact absurd h hn
        · exact absurd (Or.inl h) hKc
        · exact absurd (Or.inr h) hKc
        · exact h
      rw [if_pos hp]

/-- C7: for every K in `[1, 24]`, `build` on the empty sequence succeeds and
produces a table whose entries are all `0`, and `find` on the empty sequence
returns not-found for every key. -/
theorem build_find_empty_sequence (K : Nat) (s : List Nat)
    (hK1 : 1 ≤ K) (hK2 : K ≤ 24) (hs : s.length = 2 ^ K + 1) :
    ∃ ts : List Nat, bucketsearch_u64_build [] K (some s) = (0, some ts) ∧
      ts.length = 2 ^ K + 1 ∧ (∀ q ∈ ts, q = 0) ∧
      ∀ x : Nat, bucketsearch_u64_find [] K ts x = -1 := by
  have hKc : ¬(K = 0 ∨ 24 < K) := by omega
  obtain ⟨ts, hts⟩ : ∃ ts : List Nat,
      bucketsearch_u64_build [] K (some s) = (0, some ts) := by
    simp only [bucketsearch_u64_build, if_neg hKc]
    exact ⟨_, rfl⟩
  obtain ⟨hlen, htable⟩ := build_table_getD [] K s ts (by simp) (by simp)
    hK1 hK2 hs hts
  refine ⟨ts, hts, hlen, ?_, ?_⟩
  · intro q hq
    obtain ⟨i, hi, hv⟩ := List.getElem_of_mem hq
    have := htable i (by omega)
    rw [getD_eq_get ts i hi, hv] at this
    simpa [bcnt] using this
  · intro x
    rfl

/-- C8: concrete scenario from the spec: for the sequence
`[10, 20, 30, 1000, 1001, 1002]` with `K = 2`, the derived width is
`bit_width_u64 1002 = 10`, `build` produces the table `[0, 3, 3, 3, 6]`,
`find 30` returns index `2`, `find 31` returns not-found and `find 1001`
returns index `4`. -/
theorem concrete_scenario :
    bit_width_u64 1002 = 10 ∧
    bucketsearch_u64_build [10, 20, 30, 1000, 1001, 1002] 2
      (some [0, 0, 0, 0, 0]) = (0, some [0, 3, 3, 3, 6]) ∧
    bucketsearch_u64_find [10, 20, 30, 1000, 1001, 1002] 2 [0, 3, 3, 3, 6] 30
      = 2 ∧
    bucketsearch_u64_find [10, 20, 30, 1000, 1001, 1002] 2 [0, 3, 3, 3, 6] 31
      = -1 ∧
    bucketsearch_u64_find [10, 20, 30, 1000, 1001, 1002] 2 [0, 3, 3, 3, 6] 1001
      = 4 := by
  refine ⟨by decide, by decide, by decide, by decide, by decide⟩

/-- C9: the binary-search loop of `lower_bound_u64` terminates on every input
with `lo ≤ hi` and its result stays within `[lo, hi]`; `lower_bound_u64`,
`bucketsearch_u64_build` and `bucketsearch_u64_find` are total Lean
functions, so termination on every input is established by their very
definitions. -/
theorem lower_bound_u64_total_in_range (a : List Nat) (lo hi x : Nat)
    (h : lo ≤ hi) :
    lo ≤ lower_bound_u64 a lo hi x ∧ lower_bound_u64 a lo hi x ≤ hi :=
  lower_bound_u64_bounds a lo hi x h

/-- C10: `find` never returns a false positive, even without the build
pairing: for every table whose entries lie in `[0, n]` and which is
monotone at the consulted prefix, a non-negative result is a valid index
whose element equals the key, because `find` checks element equality before
returning. -/
theorem find_no_false_positive (a : List Nat) (K : Nat) (start : List Nat)
    (x : Nat)
    (hmono : start.getD
        (prefix_u64 x (bit_width_u64 (a.getD (a.length - 1) 0)) K) 0 ≤
      start.getD
        (prefix_u64 x (bit_width_u64 (a.getD (a.length - 1) 0)) K + 1) 0)
    (hbound : ∀ v ∈ start, v ≤ a.length)
    (hpos : 0 ≤ bucketsearch_u64_find a K start x) :
    ∃ i : Nat, bucketsearch_u64_find a K start x = (i : Int) ∧
      i < a.length ∧ a.getD i 0 = x := by
  simp only [bucketsearch_u64_find] at hpos ⊢
  by_cases hn : a.length = 0
  · rw [if_pos hn] at hpos
    norm_num at hpos
  · rw [if_neg hn] at hpos ⊢
    by_cases hKc : K = 0 ∨ 24 < K
    · rw [if_pos hKc] at hpos
      norm_num at hpos
    · rw [if_neg hKc] at hpos ⊢
      by_cases hp : 2 ^ K ≤
          prefix_u64 x (bit_width_u64 (a.getD (a.length - 1) 0)) K
      · rw [if_pos hp] at hpos
        norm_num at hpos
      · rw [if_neg hp] at hpos ⊢
        have hhin : start.getD
            (prefix_u64 x (bit_width_u64 (a.getD (a.length - 1) 0)) K + 1) 0 ≤
            a.length := by
          rcases Nat.lt_or_ge
            (prefix_u64 x (bit_width_u64 (a.getD (a.length - 1) 0)) K + 1)
            start.length with h | h
          · exact hbound _ (getD_mem_of_lt start _ h)
          · rw [List.getD_eq_getElem?_getD, List.getElem?_eq_none (by omega),
              Option.getD_none]
            exact Nat.zero_le _
        by_cases hlh : start.getD
            (prefix_u64 x (bit_width_u64 (a.getD (a.length - 1) 0)) K) 0 =
            start.getD
            (prefix_u64 x (bit_width_u64 (a.getD (a.length - 1) 0)) K + 1) 0
        · rw [if_pos hlh] at hpos
          norm_num at hpos
        · rw [if_neg hlh] at hpos ⊢
          by_cases hrej : x < a.getD (start.getD
              (prefix_u64 x (bit_width_u64 (a.getD (a.length - 1) 0)) K) 0) 0 ∨
              a.getD (start.getD
              (prefix_u64 x (bit_width_u64 (a.getD (a.length - 1) 0)) K + 1) 0
                - 1) 0 < x
          · rw [if_pos hrej] at hpos
            norm_num at hpos
          · rw [if_neg hrej] at hpos ⊢
            have hb := lower_bound_u64_bounds a
              (start.getD
                (prefix_u64 x (bit_width_u64 (a.getD (a.length - 1) 0)) K) 0)
              (start.getD
                (prefix_u64 x (bit_width_u64 (a.getD (a.length - 1) 0)) K + 1)
                0) x hmono
            by_cases hcond : lower_bound_u64 a
                (start.getD
                  (prefix_u64 x (bit_width_u64 (a.getD (a.length - 1) 0)) K) 0)
                (start.getD
                  (prefix_u64 x (bit_width_u64 (a.getD (a.length - 1) 0)) K
                    + 1) 0) x ≠
                start.getD
                  (prefix_u64 x (bit_width_u64 (a.getD (a.length - 1) 0)) K
                    + 1) 0 ∧
                a.getD (lower_bound_u64 a
                  (start.getD
                    (prefix_u64 x (bit_width_u64 (a.getD (a.length - 1) 0)) K)
                    0)
                  (start.getD
                    (prefix_u64 x (bit_width_u64 (a.getD (a.length - 1) 0)) K
                      + 1) 0) x) 0 = x
            · rw [if_pos hcond]
              refine ⟨_, rfl, by omega, hcond.2⟩
            · rw [if_neg hcond] at hpos
              norm_num at hpos

/-! ### Witnesses -/

/-- Witness for C1 at the concrete sequence `[10, 20, 30, 1000, 1001, 1002]`,
`K = 2`, the table built from it, and the key `30`. -/
theorem find_agrees_with_binary_search_witness :
    (bucketsearch_u64_find [10, 20, 30, 1000, 1001, 1002] 2 [0, 3, 3, 3, 6] 30
        = -1 ∧
      binary_find_u64 [10, 20, 30, 1000, 1001, 1002] 30 = -1) ∨
    (∃ i j : Nat,
      bucketsearch_u64_find [10, 20, 30, 1000, 1001, 1002] 2 [0, 3, 3, 3, 6] 30
        = (i : Int) ∧
      binary_find_u64 [10, 20, 30, 1000, 1001, 1002] 30 = (j : Int) ∧
      ([10, 20, 30, 1000, 1001, 1002] : List Nat).getD i 0 = 30 ∧
      ([10, 20, 30, 1000, 1001, 1002] : List Nat).getD j 0 = 30) :=
  find_agrees_with_binary_search [10, 20, 30, 1000, 1001, 1002] 2
    [0, 0, 0, 0, 0] [0, 3, 3, 3, 6] 30 (by decide) (by decide) (by norm_num)
    (by norm_num) (by norm_num) (by decide)

/-- Witness for C2 at the concrete sequence `[10, 20, 30, 1000, 1001, 1002]`,
`K = 2`, the table built from it, and the absent key `31`. -/
theorem find_membership_witness :
    (31 ∈ ([10, 20, 30, 1000, 1001, 1002] : List Nat) →
      ∃ i : Nat,
        bucketsearch_u64_find [10, 20, 30, 1000, 1001, 1002] 2 [0, 3, 3, 3, 6]
          31 = (i : Int) ∧
        ([10, 20, 30, 1000, 1001, 1002] : List Nat).getD i 0 = 31) ∧
    (31 ∉ ([10, 20, 30, 1000, 1001, 1002] : List Nat) →
      bucketsearch_u64_find [10, 20, 30, 1000, 1001, 1002] 2 [0, 3, 3, 3, 6] 31
        = -1) :=
  find_membership [10, 20, 30, 1000, 1001, 1002] 2 [0, 0, 0, 0, 0]
    [0, 3, 3, 3, 6] 31 (by decide) (by decide) (by norm_num) (by norm_num)
    (by norm_num) (by decide)

/-- Witness for C3 at the concrete sequence `[10, 20, 30, 1000, 1001, 1002]`
with `K = 2` and the table built from it. -/
theorem build_bucket_ranges_witness :
    ([0, 3, 3, 3, 6] : List Nat).getD (2 ^ 2) 0 =
      ([10, 20, 30, 1000, 1001, 1002] : List Nat).length ∧
    (∀ p, p < 2 ^ 2 → ([0, 3, 3, 3, 6] : List Nat).getD p 0 ≤
      ([0, 3, 3, 3, 6] : List Nat).getD (p + 1) 0) ∧
    (∀ p, p < 2 ^ 2 →
      ∀ i, i < ([10, 20, 30, 1000, 1001, 1002] : List Nat).length →
      (([0, 3, 3, 3, 6] : List Nat).getD p 0 ≤ i ∧
        i < ([0, 3, 3, 3, 6] : List Nat).getD (p + 1) 0 ↔
        prefix_u64 (([10, 20, 30, 1000, 1001, 1002] : List Nat).getD i 0)
          (bit_width_u64
            (if ([10, 20, 30, 1000, 1001, 1002] : List Nat).length ≠ 0 then
              ([10, 20, 30, 1000, 1001, 1002] : List Nat).getD
                (([10, 20, 30, 1000, 1001, 1002] : List Nat).length - 1) 0
            else 0)) 2 = p)) :=
  build_bucket_ranges [10, 20, 30, 1000, 1001, 1002] 2 [0, 0, 0, 0, 0]
    [0, 3, 3, 3, 6] (by decide) (by decide) (by norm_num) (by norm_num)
    (by norm_num) (by decide)

/-- Witness for C4 at `K = 0` with an empty sequence and a present table. -/
theorem build_invalid_parameter_witness :
    (bucketsearch_u64_build [] 0 (some [])).1 ≠ 0 ∧
      (bucketsearch_u64_build [] 0 (some [])).2 = some [] :=
  build_invalid_parameter [] 0 (some []) (Or.inl rfl)

/-- Witness for the amended C5 at `x = 5`, `W = 3`, `K = 2`. -/
theorem prefix_u64_in_range_witness : prefix_u64 5 3 2 < 2 ^ 2 :=
  prefix_u64_in_range 5 3 2 (by norm_num) (by norm_num) (by norm_num)

/-- Witness for C6 on the empty sequence. -/
theorem find_validates_before_lookup_witness :
    bucketsearch_u64_find [] 1 [] 5 = -1 :=
  find_validates_before_lookup [] 1 [] 5 (Or.inl rfl)

/-- Witness for C7 at `K = 1` with a table buffer of size `3`. -/
theorem build_find_empty_sequence_witness :
    ∃ ts : List Nat, bucketsearch_u64_build [] 1 (some [7, 7, 7]) =
        (0, some ts) ∧
      ts.length = 2 ^ 1 + 1 ∧ (∀ q ∈ ts, q = 0) ∧
      ∀ x : Nat, bucketsearch_u64_find [] 1 ts x = -1 :=
  build_find_empty_sequence 1 [7, 7, 7] (by norm_num) (by norm_num)
    (by norm_num)

/-- Witness for C9 at `lo = 0`, `hi = 3` over `[1, 2, 3]`. -/
theorem lower_bound_u64_total_in_range_witness :
    0 ≤ lower_bound_u64 [1, 2, 3] 0 3 2 ∧ lower_bound_u64 [1, 2, 3] 0 3 2 ≤ 3 :=
  lower_bound_u64_total_in_range [1, 2, 3] 0 3 2 (by norm_num)

/-- Witness for C10 over the sequence `[5]` with the hand-written table
`[0, 0, 1]`, which was not produced by `build`. -/
theorem find_no_false_positive_witness :
    ∃ i : Nat, bucketsearch_u64_find [5] 1 [0, 0, 1] 5 = (i : Int) ∧
      i < ([5] : List Nat).length ∧ ([5] : List Nat).getD i 0 = 5 :=
  find_no_false_positive [5] 1 [0, 0, 1] 5 (by decide) (by decide) (by decide)

end BucketSearch
